import Mathlib

/-!
Shallow embedding of the advanced-vector container (vector.h).

The C++ source is a `Vector<T>` over a `RawMemory<T>` block.  The model
`AVec T` keeps the live element region as a list (`elems`, the slots
`[0, size)`) and the capacity of the owned raw block (`cap`); slots
`[size, cap)` are uninitialized and therefore not represented — reading
one is modelled as an undefined outcome.

Element-type behaviour is a parameter: `ElemOps T` bundles the throw
oracles of the element type's constructors and assignment operators, the
two compile-time traits that `SafeMove`, `PushBack(T&&)` and friends
branch on (`std::is_nothrow_move_constructible_v<T>`,
`std::is_copy_constructible_v<T>`), the allocation-failure oracle of
`operator new`, and the valid-but-unspecified residue `res` that a
moved-from value is left with.  Fallible operations return `Except`,
where the `error` payload is the observable state of the vector object
at the moment the exception leaves the member function.
-/

structure AVec (T : Type) where
  elems : List T
  cap : Nat
deriving DecidableEq

def AVec.size {T : Type} (v : AVec T) : Nat := v.elems.length

structure ElemOps (T : Type) where
  cf : T → Bool      -- copy construction from this value throws
  mf : T → Bool      -- move construction from this value throws
  caf : T → Bool     -- copy assignment from this value throws
  maf : T → Bool     -- move assignment from this value throws
  dcf : Bool         -- default construction of T throws
  af : Nat → Bool    -- allocating a raw block of n slots throws
  ntm : Bool         -- std::is_nothrow_move_constructible_v<T>
  cpy : Bool         -- std::is_copy_constructible_v<T>
  res : T → T        -- valid-but-unspecified residue of a moved-from value

/-- Element regime in which no element operation and no allocation throws. -/
def noThrow (T : Type) : ElemOps T :=
  { cf := fun _ => false, mf := fun _ => false, caf := fun _ => false,
    maf := fun _ => false, dcf := false, af := fun _ => false,
    ntm := true, cpy := true, res := id }

-- Index of the first element of the list on which the oracle fires.
def firstFail {T : Type} (p : T → Bool) : List T → Option Nat
  | [] => none
  | a :: l => if p a then some 0 else (firstFail p l).map (· + 1)

-- One left-shift pass over a suffix of the buffer, as performed by
-- std::move(begin()+index+1, end(), begin()+index) in Erase: slot j-1 is
-- assigned from slot j for every j past the head.  Returns the suffix
-- contents after the pass together with the number of assignments made.
def shiftLeft1 {T : Type} : List T → List T × Nat
  | [] => ([], 0)
  | [a] => ([a], 0)
  | _ :: b :: l =>
    (b :: (shiftLeft1 (b :: l)).1, (shiftLeft1 (b :: l)).2 + 1)

-- std::uninitialized_copy_n(src + start, n, dst) where src is the raw
-- buffer of another vector whose live region is `src` (the list): a read
-- at an index with no live element is undefined behaviour (`error true`),
-- a copy construction that throws is `error false` (partially constructed
-- copies are destroyed by uninitialized_copy_n itself).
def copyTail {T : Type} (E : ElemOps T) (src : List T) : Nat → Nat → Except Bool (List T)
  | _, 0 => .ok []
  | start, n + 1 =>
    match src[start]? with
    | none => .error true
    | some a =>
      if E.cf a then .error false
      else (copyTail E src (start + 1) n).map (a :: ·)

/-- Vector::SafeMove(from, size, to): relocates the live elements into a
fresh block and destroys the originals.  Moves when the move constructor
is noexcept or T is not copy constructible, otherwise copies.  On a throw
the relocation stops; the payload is what the source live region then
holds (originals intact on the copy path, a moved-from residue prefix on
the throwing-move path). -/
def safeMove {T : Type} (E : ElemOps T) (l : List T) : Except (List T) Unit :=
  if E.ntm || !E.cpy then
    match firstFail E.mf l with
    | some j => .error ((l.take j).map E.res ++ l.drop j)
    | none => .ok ()
  else
    match firstFail E.cf l with
    | some _ => .error l
    | none => .ok ()

-- The fresh-block capacity used by PushBack/EmplaceBack/Emplace growth:
-- size_ == 0 ? 1 : size_ * 2.
def growCap (n : Nat) : Nat := if n = 0 then 1 else n * 2

def afterE {T : Type} : Except (AVec T) (AVec T) → AVec T
  | .ok v => v
  | .error v => v

def afterEI {T : Type} : Except (AVec T) (AVec T × Nat) → AVec T
  | .ok (v, _) => v
  | .error v => v

def afterEC {T : Type} : Except (AVec T) (AVec T × Nat × Nat) → AVec T
  | .ok (v, _) => v
  | .error v => v

def isErr {T U : Type} : Except (AVec T) U → Bool
  | .ok _ => false
  | .error _ => true

/-- Vector(): default construction, size 0 and capacity 0. -/
def vecNew (T : Type) : AVec T := ⟨[], 0⟩

/-- Vector(size_t size): a block of exactly `n` slots, value-initialized.
A failed element construction destroys the partial prefix and propagates
before the object exists, so only the success state is a vector state. -/
def sizedVec (T : Type) (d : T) (n : Nat) : AVec T := ⟨List.replicate n d, n⟩

/-- Vector(const Vector&): a block of exactly other.size_ slots, elements
copy-constructed; same remark as for the sized constructor on failure. -/
def copyCtor {T : Type} (w : AVec T) : AVec T := ⟨w.elems, w.size⟩

/-- Vector(Vector&&): destination steals the block and the size, the
source is left with size 0 and capacity 0; noexcept. -/
def moveCtor {T : Type} (w : AVec T) : AVec T × AVec T :=
  (⟨w.elems, w.cap⟩, ⟨[], 0⟩)

/-- operator=(Vector&&): `same` renders the this == &rhs pointer test;
on a self move-assignment nothing happens, otherwise the destination
adopts the source's block and size and the source becomes empty. -/
def moveAssign {T : Type} (same : Bool) (dst src : AVec T) : AVec T × AVec T :=
  if same then (dst, src) else (⟨src.elems, src.cap⟩, ⟨[], 0⟩)

/-- Vector::Swap: exchanges blocks and sizes; noexcept. -/
def swapVec {T : Type} (a b : AVec T) : AVec T × AVec T := (b, a)

/-- Vector::PopBack: destroys the last live element; noexcept, requires
size_ > 0 (asserted in the source). -/
def popBack {T : Type} (v : AVec T) : AVec T := ⟨v.elems.dropLast, v.cap⟩

/-- Vector::Reserve(new_capacity): early return when not growing,
otherwise allocate, SafeMove the live elements across, adopt.  The second
component counts relocated elements on the successful growth path. -/
def reserveV {T : Type} (E : ElemOps T) (v : AVec T) (c : Nat) :
    Except (AVec T) (AVec T) × Nat :=
  if c ≤ v.cap then (.ok v, 0)
  else if E.af c then (.error v, 0)
  else
    match safeMove E v.elems with
    | .error r => (.error ⟨r, v.cap⟩, 0)
    | .ok _ => (.ok ⟨v.elems, c⟩, v.size)

/-- Vector::Resize(new_size): shrink destroys the trailing elements
(noexcept), growth reserves then value-initializes the new tail; `d` is
the value produced by T's default constructor and `E.dcf` its throw
oracle (uninitialized_value_construct_n destroys the partial tail before
propagating, so only size_ is left untouched while capacity may have
grown). -/
def resizeV {T : Type} (E : ElemOps T) (d : T) (v : AVec T) (n : Nat) :
    Except (AVec T) (AVec T) :=
  if n < v.size then .ok ⟨v.elems.take n, v.cap⟩
  else if n > v.size then
    match (reserveV E v n).1 with
    | .error w => .error w
    | .ok w =>
      if E.dcf then .error w
      else .ok ⟨w.elems ++ List.replicate (n - w.size) d, w.cap⟩
  else .ok v

/-- Vector::PushBack(const T& value): on growth, copy-construct the new
value into the fresh block first, then SafeMove the existing elements;
otherwise copy-construct in place.  Every throw happens before data_ and
size_ are touched, except a throwing-move relocation which leaves the
residue recorded by `safeMove`. -/
def pushBack {T : Type} (E : ElemOps T) (v : AVec T) (x : T) :
    Except (AVec T) (AVec T) :=
  if v.size = v.cap then
    if E.af (growCap v.size) then .error v
    else if E.cf x then .error v
    else
      match safeMove E v.elems with
      | .error r => .error ⟨r, v.cap⟩
      | .ok _ => .ok ⟨v.elems ++ [x], growCap v.size⟩
  else
    if E.cf x then .error v
    else .ok ⟨v.elems ++ [x], v.cap⟩

/-- Vector::PushBack(T&& value): on growth, the noexcept-move regime
move-constructs the value then uninitialized_move_n's the elements; the
copy regime tries the move, falls back to a copy of the value when it
throws, and copies the elements.  In place: a single move construction. -/
def pushBackMove {T : Type} (E : ElemOps T) (v : AVec T) (x : T) :
    Except (AVec T) (AVec T) :=
  if v.size = v.cap then
    if E.af (growCap v.size) then .error v
    else if E.ntm || !E.cpy then
      if E.mf x then .error v
      else
        match firstFail E.mf v.elems with
        | some j => .error ⟨(v.elems.take j).map E.res ++ v.elems.drop j, v.cap⟩
        | none => .ok ⟨v.elems ++ [x], growCap v.size⟩
    else
      if E.mf x && E.cf x then .error v
      else
        match firstFail E.cf v.elems with
        | some _ => .error v
        | none => .ok ⟨v.elems ++ [x], growCap v.size⟩
  else
    if E.mf x then .error v
    else .ok ⟨v.elems ++ [x], v.cap⟩

/-- Vector::EmplaceBack(args...): `mk` is the throw oracle of constructing
T from the argument pack, `x` the constructed value.  Returns (besides the
new state) the index of the returned reference data_[size_ - 1]. -/
def emplaceBack {T : Type} (E : ElemOps T) (v : AVec T) (mk : Bool) (x : T) :
    Except (AVec T) (AVec T × Nat) :=
  if v.size = v.cap then
    if E.af (growCap v.size) then .error v
    else if mk then .error v
    else
      match safeMove E v.elems with
      | .error r => .error ⟨r, v.cap⟩
      | .ok _ => .ok (⟨v.elems ++ [x], growCap v.size⟩, v.size)
  else
    if mk then .error v
    else .ok (⟨v.elems ++ [x], v.cap⟩, v.size)

/-- Vector::EmplaceWithReallocate: construct the new element at its slot
in the fresh block, SafeMove the prefix (on a throw the new element is
destroyed and the exception rethrown), SafeMove the suffix shifted one
slot up (on a throw the relocated prefix copies are destroyed and the
exception rethrown — by then the first SafeMove has already destroyed the
original prefix elements, so the model keeps a length-preserving residue
for those dead slots). -/
def emplaceWithReallocate {T : Type} (E : ElemOps T) (v : AVec T) (p : Nat)
    (mk : Bool) (x : T) : Except (AVec T) (AVec T × Nat) :=
  if E.af (growCap v.size) then .error v
  else if mk then .error v
  else
    match safeMove E (v.elems.take p) with
    | .error r => .error ⟨r ++ v.elems.drop p, v.cap⟩
    | .ok _ =>
      match safeMove E (v.elems.drop p) with
      | .error r2 => .error ⟨(v.elems.take p).map E.res ++ r2, v.cap⟩
      | .ok _ => .ok (⟨v.elems.take p ++ x :: v.elems.drop p, growCap v.size⟩, p)

/-- Vector::EmplaceWithoutReallocate: build a temporary from the
arguments, move-construct the last live element into the first free slot,
std::move_backward the range [pos, end-1) one slot towards the end
(assignments run from the back; a throw leaves the already-shifted tail
and a moved-from residue at the failure slot), then move-assign the
temporary into slot pos. -/
def emplaceWithoutReallocate {T : Type} (E : ElemOps T) (v : AVec T) (p : Nat)
    (mk : Bool) (x : T) : Except (AVec T) (AVec T × Nat) :=
  if mk then .error v
  else
    match v.elems.getLast? with
    | none => .error v
    | some a =>
      if E.mf a then .error ⟨v.elems.dropLast ++ [E.res a], v.cap⟩
      else
        match firstFail E.maf ((v.elems.drop p).dropLast).reverse with
        | some j =>
          .error ⟨v.elems.take (v.size - 1 - j)
                   ++ ((v.elems.drop (v.size - 1 - j)).take 1).map E.res
                   ++ (v.elems.drop (v.size - 1 - j)).dropLast, v.cap⟩
        | none =>
          if E.maf x then
            .error ⟨v.elems.take p ++ ((v.elems.drop p).take 1).map E.res
                     ++ (v.elems.drop p).dropLast, v.cap⟩
          else .ok (⟨v.elems.take p ++ x :: v.elems.drop p, v.cap⟩, p)

/-- Vector::Emplace(pos, args...): `p` is pos - begin().  The end
position delegates to EmplaceBack; otherwise reallocate when full. -/
def emplaceV {T : Type} (E : ElemOps T) (v : AVec T) (p : Nat) (mk : Bool) (x : T) :
    Except (AVec T) (AVec T × Nat) :=
  if p = v.size then emplaceBack E v mk x
  else if v.size = v.cap then emplaceWithReallocate E v p mk x
  else emplaceWithoutReallocate E v p mk x

/-- Vector::Insert(pos, const T& value) = Emplace(pos, value): the pack
is the lvalue, so constructing T from it is a copy construction. -/
def insertV {T : Type} (E : ElemOps T) (v : AVec T) (p : Nat) (x : T) :
    Except (AVec T) (AVec T × Nat) :=
  emplaceV E v p (E.cf x) x

/-- Vector::Erase(pos): move-assign every later element one slot down,
destroy the vacated last slot, decrement size_.  `p` is pos - begin(),
required to address a live element.  On success the result also carries
the number of assignment operations and of destructor calls performed.
A throwing move assignment leaves the already-shifted prefix, a moved-from
residue at the failure slot, and the untouched tail, with size_ intact. -/
def eraseV {T : Type} (E : ElemOps T) (v : AVec T) (i : Nat) :
    Except (AVec T) (AVec T × Nat × Nat) :=
  match firstFail E.maf (v.elems.drop (i + 1)) with
  | some j =>
    .error ⟨v.elems.take i ++ (v.elems.drop (i + 1)).take j
             ++ ((v.elems.drop (i + j)).take 1).map E.res
             ++ v.elems.drop (i + j + 1), v.cap⟩
  | none =>
    .ok (⟨(v.elems.take i ++ (shiftLeft1 (v.elems.drop i)).1).dropLast, v.cap⟩,
         (shiftLeft1 (v.elems.drop i)).2, 1)

/-- Outcomes of operator=(const Vector&) between distinct objects: a
normal result, an exception carrying the observable state at the throw,
or undefined behaviour (the tail copy read a slot outside rhs's live
region). -/
inductive COut (T : Type) where
  | ub : COut T
  | err : AVec T → COut T
  | ok : AVec T → COut T
deriving DecidableEq

/-- operator=(const Vector& rhs) for this != &rhs.  When rhs does not fit,
copy-and-swap via the copy constructor.  Otherwise assign over the
overlapping prefix element by element, then either copy-construct a tail
into the free slots — the source of that copy is
rhs.data_ + (rhs.size_ - size_), exactly as written in the source — or
destroy the excess elements. -/
def copyAssignD {T : Type} (E : ElemOps T) (dst src : AVec T) : COut T :=
  if src.size > dst.cap then
    if E.af src.size then .err dst
    else
      match firstFail E.cf src.elems with
      | some _ => .err dst
      | none => .ok ⟨src.elems, src.size⟩
  else if src.size > dst.size then
    match firstFail E.caf (src.elems.take dst.size) with
    | some j => .err ⟨src.elems.take j ++ dst.elems.drop j, dst.cap⟩
    | none =>
      match copyTail E src.elems (src.size - dst.size) (src.size - dst.size) with
      | .error true => .ub
      | .error false => .err ⟨src.elems.take dst.size, dst.cap⟩
      | .ok seg => .ok ⟨src.elems.take dst.size ++ seg, dst.cap⟩
  else
    match firstFail E.caf src.elems with
    | some j => .err ⟨src.elems.take j ++ dst.elems.drop j, dst.cap⟩
    | none => .ok ⟨src.elems, dst.cap⟩

/-- operator=(const Vector&) including the this == &rhs test. -/
def copyAssign {T : Type} (E : ElemOps T) (same : Bool) (dst src : AVec T) : COut T :=
  if same then .ok dst else copyAssignD E dst src

/-- States of a vector object reachable through any sequence of the
public operations, recording both normal returns and the state left
behind when an operation exits with an exception.  Swap and the
self-assignment branches produce no state beyond their operands and are
therefore not separate constructors. -/
inductive Reachable {T : Type} (E : ElemOps T) (d : T) : AVec T → Prop where
  | empty : Reachable E d (vecNew T)
  | sized (n : Nat) : Reachable E d (sizedVec T d n)
  | copyC {w : AVec T} : Reachable E d w → Reachable E d (copyCtor w)
  | moveCDst {w : AVec T} : Reachable E d w → Reachable E d (moveCtor w).1
  | moveCSrc {w : AVec T} : Reachable E d w → Reachable E d (moveCtor w).2
  | reserveR {w : AVec T} (c : Nat) :
      Reachable E d w → Reachable E d (afterE (reserveV E w c).1)
  | resizeR {w : AVec T} (n : Nat) :
      Reachable E d w → Reachable E d (afterE (resizeV E d w n))
  | pushBackR {w : AVec T} (x : T) :
      Reachable E d w → Reachable E d (afterE (pushBack E w x))
  | pushBackMv {w : AVec T} (x : T) :
      Reachable E d w → Reachable E d (afterE (pushBackMove E w x))
  | emplaceBackR {w : AVec T} (mk : Bool) (x : T) :
      Reachable E d w → Reachable E d (afterEI (emplaceBack E w mk x))
  | emplaceR {w : AVec T} (p : Nat) (mk : Bool) (x : T) :
      p ≤ w.size → Reachable E d w → Reachable E d (afterEI (emplaceV E w p mk x))
  | insertR {w : AVec T} (p : Nat) (x : T) :
      p ≤ w.size → Reachable E d w → Reachable E d (afterEI (insertV E w p x))
  | popBackR {w : AVec T} :
      w.size ≠ 0 → Reachable E d w → Reachable E d (popBack w)
  | eraseR {w : AVec T} (i : Nat) :
      i < w.size → Reachable E d w → Reachable E d (afterEC (eraseV E w i))
  | copyAsgOk {a b w : AVec T} :
      Reachable E d a → Reachable E d b → copyAssignD E a b = .ok w → Reachable E d w
  | copyAsgErr {a b w : AVec T} :
      Reachable E d a → Reachable E d b → copyAssignD E a b = .err w → Reachable E d w
  | moveAsgDst {a b : AVec T} :
      Reachable E d a → Reachable E d b → Reachable E d (moveAssign false a b).1
  | moveAsgSrc {a b : AVec T} :
      Reachable E d a → Reachable E d b → Reachable E d (moveAssign false a b).2

/-- Sequence of m PushBack calls on a default-constructed vector, in the
regime where nothing throws; f gives the value pushed at each step. -/
def pushSeq {T : Type} (f : Nat → T) : Nat → AVec T
  | 0 => vecNew T
  | m + 1 => afterE (pushBack (noThrow T) (pushSeq f m) (f m))

/-- Element regime for the witnesses: copying the value 5 throws, the
move constructor is not noexcept, T is copy constructible. -/
def failCopy5 : ElemOps Nat :=
  { noThrow Nat with cf := fun t => t == 5, ntm := false }

/-! Helper lemmas about the embedding. -/

@[simp] theorem AVec.size_mk {T : Type} (l : List T) (c : Nat) :
    (AVec.mk l c).size = l.length := rfl

theorem firstFail_some_lt {T : Type} (p : T → Bool) :
    ∀ (l : List T) (j : Nat), firstFail p l = some j → j < l.length
  | [], j, h => by simp [firstFail] at h
  | a :: l, j, h => by
    by_cases hp : p a
    · simp [firstFail, hp] at h
      simp only [List.length_cons]
      omega
    · simp [firstFail, hp] at h
      rcases h with ⟨k, hk, hkj⟩
      have := firstFail_some_lt p l k hk
      simp only [List.length_cons]
      omega

theorem firstFail_none {T : Type} (p : T → Bool) (hp : ∀ a, p a = false) :
    ∀ l : List T, firstFail p l = none
  | [] => rfl
  | a :: l => by simp [firstFail, hp a, firstFail_none p hp l]

theorem shiftLeft1_eq {T : Type} :
    ∀ l : List T, shiftLeft1 l = (l.tail ++ l.getLast?.toList, l.length - 1)
  | [] => rfl
  | [a] => rfl
  | a :: b :: l => by
    have ih := shiftLeft1_eq (b :: l)
    simp only [shiftLeft1, ih, List.tail_cons, List.getLast?_cons_cons,
      List.length_cons]
    refine congrArg₂ Prod.mk ?_ ?_
    · simp
    · omega

theorem copyTail_ok_length {T : Type} (E : ElemOps T) (src : List T) :
    ∀ (n start : Nat) (seg : List T), copyTail E src start n = .ok seg → seg.length = n
  | 0, start, seg, h => by
    simp only [copyTail] at h
    cases h
    rfl
  | n + 1, start, seg, h => by
    simp only [copyTail] at h
    cases hg : src[start]? with
    | none => simp [hg] at h
    | some a =>
      simp only [hg] at h
      by_cases hc : E.cf a
      · simp [if_pos hc] at h
      · simp only [if_neg hc] at h
        cases hin : copyTail E src (start + 1) n with
        | error e => simp [hin, Except.map] at h
        | ok seg0 =>
          simp only [hin, Except.map] at h
          cases h
          have := copyTail_ok_length E src n (start + 1) seg0 hin
          simp [this]

theorem safeMove_error_length {T : Type} (E : ElemOps T) (l r : List T)
    (h : safeMove E l = .error r) : r.length = l.length := by
  unfold safeMove at h
  split at h
  · cases hf : firstFail E.mf l with
    | none => rw [hf] at h; cases h
    | some j =>
      rw [hf] at h
      cases h
      have := firstFail_some_lt E.mf l j hf
      simp [List.length_take, List.length_drop]
      omega
  · cases hf : firstFail E.cf l with
    | none => rw [hf] at h; cases h
    | some j => rw [hf] at h; cases h; rfl

@[simp] theorem noThrow_cf {T : Type} (t : T) : (noThrow T).cf t = false := rfl

@[simp] theorem noThrow_mf {T : Type} (t : T) : (noThrow T).mf t = false := rfl

@[simp] theorem noThrow_caf {T : Type} (t : T) : (noThrow T).caf t = false := rfl

@[simp] theorem noThrow_maf {T : Type} (t : T) : (noThrow T).maf t = false := rfl

@[simp] theorem noThrow_dcf {T : Type} : (noThrow T).dcf = false := rfl

@[simp] theorem noThrow_af {T : Type} (n : Nat) : (noThrow T).af n = false := rfl

theorem safeMove_noThrow {T : Type} (l : List T) : safeMove (noThrow T) l = .ok () := by
  simp [safeMove, noThrow, firstFail_none (fun _ => false) (fun _ => rfl)]

theorem pushBack_noThrow {T : Type} (v : AVec T) (x : T) :
    pushBack (noThrow T) v x =
      .ok ⟨v.elems ++ [x], if v.size = v.cap then growCap v.size else v.cap⟩ := by
  unfold pushBack
  split
  · simp [safeMove_noThrow, *]
  · simp [*]

theorem emplaceBack_noThrow {T : Type} (v : AVec T) (x : T) :
    emplaceBack (noThrow T) v false x =
      .ok (⟨v.elems ++ [x], if v.size = v.cap then growCap v.size else v.cap⟩, v.size) := by
  unfold emplaceBack
  split
  · simp [safeMove_noThrow, *]
  · simp [*]

@[simp] theorem afterE_ok {T : Type} (w : AVec T) : afterE (Except.ok w) = w := rfl

@[simp] theorem afterE_error {T : Type} (w : AVec T) : afterE (Except.error w) = w := rfl

@[simp] theorem afterEI_ok {T : Type} (w : AVec T) (r : Nat) :
    afterEI (Except.ok (w, r)) = w := rfl

@[simp] theorem afterEI_error {T : Type} (w : AVec T) :
    afterEI (Except.error w : Except (AVec T) (AVec T × Nat)) = w := rfl

@[simp] theorem afterEC_ok {T : Type} (w : AVec T) (c : Nat × Nat) :
    afterEC (Except.ok (w, c)) = w := rfl

@[simp] theorem afterEC_error {T : Type} (w : AVec T) :
    afterEC (Except.error w : Except (AVec T) (AVec T × Nat × Nat)) = w := rfl

theorem pushSeq_spec {T : Type} (f : Nat → T) :
    ∀ m, 1 ≤ m → (pushSeq f m).size = m ∧
      ∃ k, (pushSeq f m).cap = 2 ^ k ∧ m ≤ 2 ^ k ∧ 2 ^ k < 2 * m := by
  intro m
  induction m with
  | zero => intro h; exact absurd h (by omega)
  | succ m ih =>
    intro _
    by_cases hm : m = 0
    · subst hm
      have h1 : pushSeq f 1 = ⟨[f 0], 1⟩ := by
        simp [pushSeq, pushBack_noThrow, afterE, vecNew, growCap]
      rw [h1]
      exact ⟨rfl, 0, rfl, by norm_num, by norm_num⟩
    · have h1 : 1 ≤ m := by omega
      obtain ⟨hs, k, hc, hk1, hk2⟩ := ih h1
      have hs' : (pushSeq f m).elems.length = m := hs
      have hstep : pushSeq f (m + 1) = afterE (pushBack (noThrow T) (pushSeq f m) (f m)) := rfl
      rw [hstep, pushBack_noThrow, afterE]
      by_cases he : (pushSeq f m).size = (pushSeq f m).cap
      · rw [if_pos he]
        have hm2 : m = 2 ^ k := by rw [← hs, he, hc]
        refine ⟨by simp [AVec.size, hs'], k + 1, ?_, ?_, ?_⟩
        · show growCap (pushSeq f m).size = 2 ^ (k + 1)
          rw [hs]
          have h2k : (2:Nat) ^ (k + 1) = 2 * 2 ^ k := by ring
          simp [growCap, hm]
          omega
        · have h2k : (2:Nat) ^ (k + 1) = 2 * 2 ^ k := by ring
          omega
        · have h2k : (2:Nat) ^ (k + 1) = 2 * 2 ^ k := by ring
          omega
      · rw [if_neg he]
        have hne2 : m ≠ 2 ^ k := by
          intro heq
          exact he (by rw [hs, hc, ← heq])
        have hlt : m < 2 ^ k := by omega
        exact ⟨by simp [AVec.size, hs'], k, hc, by omega, by omega⟩

/-- C4: m sequential PushBack calls from empty give size m and a capacity
that is the least power of two at least m; the growth points double the
capacity exactly, and a PushBack or EmplaceBack called with size equal to
capacity allocates a fresh block of capacity max(1, capacity * 2). -/
theorem pushback_capacity_growth {T : Type} (f : Nat → T) (m : Nat) (hm : 1 ≤ m) :
    (pushSeq f m).size = m ∧
    (∃ k, (pushSeq f m).cap = 2 ^ k ∧ m ≤ 2 ^ k ∧ ∀ j, m ≤ 2 ^ j → 2 ^ k ≤ 2 ^ j) ∧
    (∀ (v : AVec T) (x : T), v.size = v.cap →
      afterE (pushBack (noThrow T) v x) = ⟨v.elems ++ [x], max 1 (v.cap * 2)⟩) ∧
    (∀ (v : AVec T) (x : T), v.size = v.cap →
      afterEI (emplaceBack (noThrow T) v false x) = ⟨v.elems ++ [x], max 1 (v.cap * 2)⟩) := by
  obtain ⟨hs, k, hc, hk1, hk2⟩ := pushSeq_spec f m hm
  have hgrow : ∀ n : Nat, growCap n = max 1 (n * 2) := by
    intro n
    unfold growCap
    split <;> omega
  refine ⟨hs, ⟨k, hc, hk1, ?_⟩, ?_, ?_⟩
  · intro j hj
    rcases le_or_lt k j with h | h
    · exact Nat.pow_le_pow_right (by norm_num) h
    · exfalso
      have h2 : 2 ^ (j + 1) ≤ 2 ^ k := Nat.pow_le_pow_right (by norm_num) (by omega)
      have h3 : (2:Nat) ^ (j + 1) = 2 * 2 ^ j := by ring
      omega
  · intro v x hvc
    rw [pushBack_noThrow]
    simp only [afterE_ok, if_pos hvc]
    rw [hvc, hgrow]
  · intro v x hvc
    rw [emplaceBack_noThrow]
    simp only [afterEI_ok, if_pos hvc]
    rw [hvc, hgrow]

theorem pushback_capacity_growth_witness :
    (pushSeq (fun n => (n : Nat)) 3).size = 3 :=
  (pushback_capacity_growth (fun n => (n : Nat)) 3 (by norm_num)).1

/-- C5: with a valid, non-end position i in a vector of size s, Erase
performs exactly s - 1 - i assignments and one destructor call, removes
the element at index i shifting the later ones down, and leaves size
s - 1 (stated in the regime where the move assignments themselves do not
throw, which is what the operation-count contract presumes). -/
theorem erase_counts {T : Type} (E : ElemOps T) (v : AVec T) (i : Nat) (hi : i < v.size)
    (hm : ∀ t, E.maf t = false) :
    eraseV E v i = .ok (⟨v.elems.eraseIdx i, v.cap⟩, v.size - 1 - i, 1) ∧
    (v.elems.eraseIdx i).length = v.size - 1 := by
  simp only [AVec.size] at hi
  have hne : v.elems.drop i ≠ [] := by
    intro h
    have := List.drop_eq_nil_iff.mp h
    omega
  cases hL : (v.elems.drop i).getLast? with
  | none => exact absurd (List.getLast?_eq_none_iff.mp hL) hne
  | some a =>
    have hshift := shiftLeft1_eq (v.elems.drop i)
    have helems : (v.elems.take i ++ (shiftLeft1 (v.elems.drop i)).1).dropLast
        = v.elems.eraseIdx i := by
      rw [hshift]
      simp only [hL, Option.toList_some]
      rw [List.tail_drop, ← List.append_assoc, List.dropLast_concat,
        List.eraseIdx_eq_take_drop_succ]
    have hcount : (shiftLeft1 (v.elems.drop i)).2 = v.size - 1 - i := by
      rw [hshift]
      simp only [List.length_drop, AVec.size]
      omega
    constructor
    · simp only [eraseV, firstFail_none E.maf hm]
      rw [helems, hcount]
    · rw [List.eraseIdx_eq_take_drop_succ]
      simp only [List.length_append, List.length_take, List.length_drop, AVec.size]
      omega

theorem erase_counts_witness :
    eraseV (noThrow Nat) ⟨[1, 2, 3], 4⟩ 0 = .ok (⟨[2, 3], 4⟩, 2, 1) :=
  (erase_counts (noThrow Nat) ⟨[1, 2, 3], 4⟩ 0 (by norm_num [AVec.size]) (fun t => rfl)).1

/-- C6: move construction and move assignment into a distinct object give
the destination the source's elements and capacity and leave the source
with size 0 and capacity 0; both are total functions of the model,
matching the noexcept contract. -/
theorem move_transfers_state {T : Type} (v dst src : AVec T) :
    (moveCtor v).1 = v ∧ (moveCtor v).2.size = 0 ∧ (moveCtor v).2.cap = 0 ∧
    (moveAssign false dst src).1 = src ∧ (moveAssign false dst src).2.size = 0 ∧
    (moveAssign false dst src).2.cap = 0 :=
  ⟨rfl, rfl, rfl, rfl, rfl, rfl⟩

/-- C7: Reserve with a target capacity not exceeding the current one is a
no-op: the state (capacity, size, every element) is returned unchanged
and no element is relocated. -/
theorem reserve_noop {T : Type} (E : ElemOps T) (v : AVec T) (c : Nat) (h : c ≤ v.cap) :
    reserveV E v c = (.ok v, 0) := by
  simp [reserveV, h]

theorem reserve_noop_witness :
    reserveV (noThrow Nat) ⟨[1, 2], 4⟩ 3 = (.ok ⟨[1, 2], 4⟩, 0) :=
  reserve_noop (noThrow Nat) ⟨[1, 2], 4⟩ 3 (by norm_num)

/-- C8: Emplace at the end position is the same operation as EmplaceBack
(same resulting state, same reported index, same failure behaviour), and
Insert of a value at the end position produces exactly the state PushBack
of that value produces. -/
theorem emplace_end_agrees {T : Type} (E : ElemOps T) (v : AVec T) (mk : Bool) (x : T) :
    emplaceV E v v.size mk x = emplaceBack E v mk x ∧
    Except.map Prod.fst (insertV E v v.size x) = pushBack E v x := by
  constructor
  · simp [emplaceV]
  · have h0 : insertV E v v.size x = emplaceBack E v (E.cf x) x := by
      simp [insertV, emplaceV]
    rw [h0]
    unfold emplaceBack pushBack
    by_cases h1 : v.size = v.cap
    · rw [if_pos h1, if_pos h1]
      by_cases h2 : E.af (growCap v.size)
      · simp [h2, Except.map]
      · by_cases h3 : E.cf x
        · simp [h2, h3, Except.map]
        · cases h4 : safeMove E v.elems <;> simp [h2, h3, h4, Except.map]
    · rw [if_neg h1, if_neg h1]
      by_cases h3 : E.cf x <;> simp [h3, Except.map]

/-- C9: self copy-assignment and self move-assignment take the early
this == &rhs branch and leave the vector unchanged. -/
theorem self_assignment_noop {T : Type} (E : ElemOps T) (v : AVec T) :
    copyAssign E true v v = .ok v ∧ moveAssign true v v = (v, v) :=
  ⟨rfl, rfl⟩

/-- C1 (evaluation at the failing input): with destination [0,0] of
capacity 3 and source [1,2,3], the reused-storage branch of copy
assignment copy-constructs the tail from rhs.data_ + rhs.size_ - size_
and yields [1,2,2] instead of a copy of the source; with destination [0]
of capacity 5 the same branch reads rhs slot 3, which is outside the
source's live region (undefined behaviour). -/
theorem copy_assign_reused_storage_eval :
    copyAssignD (noThrow Nat) ⟨[0, 0], 3⟩ ⟨[1, 2, 3], 3⟩ = .ok ⟨[1, 2, 2], 3⟩ ∧
    AVec.mk [1, 2, 2] 3 ≠ AVec.mk [1, 2, 3] 3 ∧
    copyAssignD (noThrow Nat) ⟨[0], 5⟩ ⟨[1, 2, 3], 3⟩ = .ub :=
  ⟨by rfl, by decide, by rfl⟩

@[simp] theorem AVec.eta {T : Type} (v : AVec T) : AVec.mk v.elems v.cap = v := rfl

theorem safeMove_error_state {T : Type} (E : ElemOps T) (l r : List T)
    (hntm : E.ntm = true → ∀ t, E.mf t = false)
    (hcase : E.ntm = true ∨ E.cpy = true)
    (h : safeMove E l = .error r) : r = l := by
  unfold safeMove at h
  by_cases hn : E.ntm
  · simp [hn, firstFail_none E.mf (hntm hn)] at h
  · simp only [Bool.not_eq_true] at hn
    have hc : E.cpy = true := hcase.resolve_left (by simp [hn])
    cases hf : firstFail E.cf l with
    | some j =>
      simp [hn, hc, hf] at h
      exact h.symm
    | none => simp [hn, hc, hf] at h

/-- C3: when the element type's move constructor is noexcept or the type
is copy constructible, a PushBack (either overload) or EmplaceBack that
exits with an exception — raised by an element constructor or copy —
leaves the vector exactly as before the call: same size, same capacity,
same elements (the error payload is the post-call observable state). -/
theorem pushback_strong_guarantee {T : Type} (E : ElemOps T) (v : AVec T) (x : T) (mk : Bool)
    (hntm : E.ntm = true → ∀ t, E.mf t = false)
    (hcase : E.ntm = true ∨ E.cpy = true) :
    (isErr (pushBack E v x) = true → afterE (pushBack E v x) = v) ∧
    (isErr (pushBackMove E v x) = true → afterE (pushBackMove E v x) = v) ∧
    (isErr (emplaceBack E v mk x) = true → afterEI (emplaceBack E v mk x) = v) := by
  refine ⟨?_, ?_, ?_⟩
  · intro hE2
    unfold pushBack at hE2 ⊢
    by_cases h1 : v.size = v.cap
    · simp only [if_pos h1] at hE2 ⊢
      by_cases h2 : E.af (growCap v.size)
      · simp [h2]
      · by_cases h3 : E.cf x
        · simp [h2, h3]
        · cases h4 : safeMove E v.elems with
          | error r =>
            have hr : r = v.elems := safeMove_error_state E v.elems r hntm hcase h4
            simp [h2, h3, h4, hr]
          | ok u => simp [h2, h3, h4, isErr] at hE2
    · simp only [if_neg h1] at hE2 ⊢
      by_cases h3 : E.cf x
      · simp [h3]
      · simp [h3, isErr] at hE2
  · intro hE2
    unfold pushBackMove at hE2 ⊢
    by_cases h1 : v.size = v.cap
    · simp only [if_pos h1] at hE2 ⊢
      by_cases h2 : E.af (growCap v.size)
      · simp [h2]
      · by_cases hn : E.ntm
        · have hmf := hntm hn
          simp [h2, hn, hmf, firstFail_none E.mf hmf, isErr] at hE2
        · simp only [Bool.not_eq_true] at hn
          have hc : E.cpy = true := hcase.resolve_left (by simp [hn])
          by_cases h5 : E.mf x && E.cf x
          · simp [h2, hn, hc, h5]
          · cases h6 : firstFail E.cf v.elems with
            | some j => simp [h2, hn, hc, h5, h6]
            | none => simp [h2, hn, hc, h5, h6, isErr] at hE2
    · simp only [if_neg h1] at hE2 ⊢
      by_cases h3 : E.mf x
      · simp [h3]
      · simp [h3, isErr] at hE2
  · intro hE2
    unfold emplaceBack at hE2 ⊢
    by_cases h1 : v.size = v.cap
    · simp only [if_pos h1] at hE2 ⊢
      by_cases h2 : E.af (growCap v.size)
      · simp [h2]
      · by_cases h3 : mk
        · simp [h2, h3]
        · cases h4 : safeMove E v.elems with
          | error r =>
            have hr : r = v.elems := safeMove_error_state E v.elems r hntm hcase h4
            simp [h2, h3, h4, hr]
          | ok u => simp [h2, h3, h4, isErr] at hE2
    · simp only [if_neg h1] at hE2 ⊢
      by_cases h3 : mk
      · simp [h3]
      · simp [h3, isErr] at hE2

theorem pushback_strong_guarantee_witness :
    isErr (pushBack failCopy5 ⟨[1, 2], 2⟩ 5) = true ∧
    afterE (pushBack failCopy5 ⟨[1, 2], 2⟩ 5) = ⟨[1, 2], 2⟩ :=
  ⟨by rfl,
   (pushback_strong_guarantee failCopy5 ⟨[1, 2], 2⟩ 5 false
      (fun h => absurd h (by decide)) (Or.inr rfl)).1 (by rfl)⟩

theorem emplaceBack_ok_inv {T : Type} (E : ElemOps T) (v : AVec T) (mk : Bool) (x : T)
    (w : AVec T) (r : Nat) (h : emplaceBack E v mk x = .ok (w, r)) :
    w.elems = v.elems ++ [x] ∧ r = v.size := by
  unfold emplaceBack at h
  by_cases h1 : v.size = v.cap
  · simp only [if_pos h1] at h
    by_cases h2 : E.af (growCap v.size)
    · simp [h2] at h
    · by_cases h3 : mk
      · simp [h2, h3] at h
      · cases h4 : safeMove E v.elems with
        | error rr => simp [h2, h3, h4] at h
        | ok u =>
          simp [h2, h3, h4] at h
          exact ⟨by rw [← h.1], h.2.symm⟩
  · simp only [if_neg h1] at h
    by_cases h3 : mk
    · simp [h3] at h
    · simp [h3] at h
      exact ⟨by rw [← h.1], h.2.symm⟩

theorem emplaceWR_ok_inv {T : Type} (E : ElemOps T) (v : AVec T) (p : Nat) (mk : Bool)
    (x : T) (w : AVec T) (r : Nat) (h : emplaceWithReallocate E v p mk x = .ok (w, r)) :
    w.elems = v.elems.take p ++ x :: v.elems.drop p ∧ r = p := by
  unfold emplaceWithReallocate at h
  by_cases h2 : E.af (growCap v.size)
  · simp [h2] at h
  · by_cases h3 : mk
    · simp [h2, h3] at h
    · cases h4 : safeMove E (v.elems.take p) with
      | error rr => simp [h2, h3, h4] at h
      | ok u =>
        cases h5 : safeMove E (v.elems.drop p) with
        | error rr => simp [h2, h3, h4, h5] at h
        | ok u2 =>
          simp [h2, h3, h4, h5] at h
          exact ⟨by rw [← h.1], h.2.symm⟩

theorem emplaceWOR_ok_inv {T : Type} (E : ElemOps T) (v : AVec T) (p : Nat) (mk : Bool)
    (x : T) (w : AVec T) (r : Nat) (h : emplaceWithoutReallocate E v p mk x = .ok (w, r)) :
    w.elems = v.elems.take p ++ x :: v.elems.drop p ∧ r = p := by
  unfold emplaceWithoutReallocate at h
  by_cases h3 : mk
  · simp [h3] at h
  · simp only [if_neg h3] at h
    cases hL : v.elems.getLast? with
    | none => simp [hL] at h
    | some a =>
      simp only [hL] at h
      by_cases h4 : E.mf a
      · simp [h4] at h
      · simp only [if_neg h4] at h
        cases h5 : firstFail E.maf ((v.elems.drop p).dropLast).reverse with
        | some j => simp [h5] at h
        | none =>
          simp only [h5] at h
          by_cases h6 : E.maf x
          · simp [h6] at h
          · simp [h6] at h
            exact ⟨by rw [← h.1], h.2.symm⟩

theorem emplaceV_ok_inv {T : Type} (E : ElemOps T) (v : AVec T) (p : Nat) (mk : Bool)
    (x : T) (w : AVec T) (r : Nat) (hp : p ≤ v.size)
    (h : emplaceV E v p mk x = .ok (w, r)) :
    w.elems = v.elems.take p ++ x :: v.elems.drop p ∧ r = p := by
  unfold emplaceV at h
  by_cases h0 : p = v.size
  · rw [if_pos h0] at h
    obtain ⟨he, hr⟩ := emplaceBack_ok_inv E v mk x w r h
    subst h0
    constructor
    · rw [he]
      show v.elems ++ [x] = _
      have ht : v.elems.take v.elems.length = v.elems := List.take_length v.elems
      have hd : v.elems.drop v.elems.length = [] := List.drop_length v.elems
      simp [AVec.size, ht, hd]
    · exact hr
  · rw [if_neg h0] at h
    by_cases h1 : v.size = v.cap
    · rw [if_pos h1] at h
      exact emplaceWR_ok_inv E v p mk x w r h
    · rw [if_neg h1] at h
      exact emplaceWOR_ok_inv E v p mk x w r h

theorem getAt_insert {T : Type} (l : List T) (p : Nat) (x : T) (hp : p ≤ l.length) :
    (l.take p ++ x :: l.drop p)[p]? = some x := by
  rw [List.getElem?_append_right (by simp [List.length_take])]
  simp [List.length_take, Nat.min_eq_left hp]

/-- C10: every successful insertion reports where the new element lives:
EmplaceBack returns (the index of) a reference to the new last element,
and Emplace and Insert return the iterator begin() + insertion index,
which addresses the newly inserted element. -/
theorem insertion_reports_position {T : Type} (E : ElemOps T) (v : AVec T) (mk : Bool) (x : T) :
    (∀ w r, emplaceBack E v mk x = .ok (w, r) → r = w.size - 1 ∧ w.elems[r]? = some x) ∧
    (∀ p w r, p ≤ v.size → emplaceV E v p mk x = .ok (w, r) →
      r = p ∧ w.elems[p]? = some x) ∧
    (∀ p w r, p ≤ v.size → insertV E v p x = .ok (w, r) →
      r = p ∧ w.elems[p]? = some x) := by
  refine ⟨?_, ?_, ?_⟩
  · intro w r h
    obtain ⟨he, hr⟩ := emplaceBack_ok_inv E v mk x w r h
    have hws : w.size = v.size + 1 := by simp [AVec.size, he]
    constructor
    · omega
    · rw [hr, he]
      show (v.elems ++ [x])[v.elems.length]? = some x
      exact List.getElem?_concat_length v.elems x
  · intro p w r hp h
    obtain ⟨he, hr⟩ := emplaceV_ok_inv E v p mk x w r hp h
    exact ⟨hr, by rw [he]; exact getAt_insert v.elems p x hp⟩
  · intro p w r hp h
    unfold insertV at h
    obtain ⟨he, hr⟩ := emplaceV_ok_inv E v p (E.cf x) x w r hp h
    exact ⟨hr, by rw [he]; exact getAt_insert v.elems p x hp⟩

theorem insertion_reports_position_witness :
    (1 : Nat) = (AVec.mk [7, 9] 2).size - 1 ∧ ([7, 9] : List Nat)[1]? = some 9 :=
  (insertion_reports_position (noThrow Nat) ⟨[7], 2⟩ false 9).1 ⟨[7, 9], 2⟩ 1 (by rfl)


theorem AVec.size_def {T : Type} (v : AVec T) : v.size = v.elems.length := rfl

theorem growCap_ge (n : Nat) : n + 1 ≤ growCap n := by
  unfold growCap
  split <;> omega

theorem reserveV_error_shape {T : Type} (E : ElemOps T) (v : AVec T) (c : Nat) (w : AVec T)
    (h : (reserveV E v c).1 = .error w) : w.size = v.size ∧ w.cap = v.cap := by
  unfold reserveV at h
  by_cases h1 : c ≤ v.cap
  · simp [h1] at h
  · by_cases h2 : E.af c
    · simp [h1, h2] at h
      subst h
      exact ⟨rfl, rfl⟩
    · cases h3 : safeMove E v.elems with
      | error r =>
        simp [h1, h2, h3] at h
        subst h
        have := safeMove_error_length E v.elems r h3
        simp [AVec.size_def, this]
      | ok u => simp [h1, h2, h3] at h

theorem reserveV_ok_shape {T : Type} (E : ElemOps T) (v : AVec T) (c : Nat) (w : AVec T)
    (h : (reserveV E v c).1 = .ok w) : w.elems = v.elems ∧ w.cap = max v.cap c := by
  unfold reserveV at h
  by_cases h1 : c ≤ v.cap
  · simp [h1] at h
    subst h
    exact ⟨rfl, (Nat.max_eq_left h1).symm⟩
  · by_cases h2 : E.af c
    · simp [h1, h2] at h
    · cases h3 : safeMove E v.elems with
      | error r => simp [h1, h2, h3] at h
      | ok u =>
        simp [h1, h2, h3] at h
        subst h
        exact ⟨rfl, (Nat.max_eq_right (Nat.le_of_not_le h1)).symm⟩

theorem inv_reserveV {T : Type} (E : ElemOps T) (v : AVec T) (c : Nat)
    (h : v.size ≤ v.cap) :
    (afterE (reserveV E v c).1).size ≤ (afterE (reserveV E v c).1).cap := by
  cases hr : (reserveV E v c).1 with
  | error w =>
    obtain ⟨h1, h2⟩ := reserveV_error_shape E v c w hr
    simp only [afterE_error]
    omega
  | ok w =>
    obtain ⟨h1, h2⟩ := reserveV_ok_shape E v c w hr
    have h3 : w.size = v.size := by simp [AVec.size_def, h1]
    simp only [afterE_ok]
    omega

theorem inv_resizeV {T : Type} (E : ElemOps T) (d : T) (v : AVec T) (n : Nat)
    (h : v.size ≤ v.cap) :
    (afterE (resizeV E d v n)).size ≤ (afterE (resizeV E d v n)).cap := by
  have hsz : v.size = v.elems.length := rfl
  unfold resizeV
  by_cases h1 : n < v.size
  · simp only [if_pos h1, afterE_ok]
    simp only [AVec.size_def, AVec.size_mk, List.length_take]
    omega
  · by_cases h2 : n > v.size
    · simp only [if_neg h1, if_pos h2]
      cases hr : (reserveV E v n).1 with
      | error w =>
        obtain ⟨hw1, hw2⟩ := reserveV_error_shape E v n w hr
        simp only [afterE_error]
        omega
      | ok w =>
        obtain ⟨hw1, hw2⟩ := reserveV_ok_shape E v n w hr
        have hws : w.size = v.size := by simp [AVec.size_def, hw1]
        by_cases h3 : E.dcf
        · simp only [if_pos h3, afterE_error]
          omega
        · simp only [if_neg h3, afterE_ok]
          simp only [AVec.size_def, AVec.size_mk, List.length_append, List.length_replicate]
          simp only [AVec.size_def] at hws
          omega
    · simp only [if_neg h1, if_neg h2, afterE_ok]
      exact h

theorem inv_pushBack {T : Type} (E : ElemOps T) (v : AVec T) (x : T)
    (h : v.size ≤ v.cap) :
    (afterE (pushBack E v x)).size ≤ (afterE (pushBack E v x)).cap := by
  have hsz : v.size = v.elems.length := rfl
  have hg := growCap_ge v.elems.length
  unfold pushBack
  by_cases h1 : v.size = v.cap
  · simp only [if_pos h1]
    by_cases h2 : E.af (growCap v.size)
    · simp only [if_pos h2, afterE_error]
      exact h
    · simp only [if_neg h2]
      by_cases h3 : E.cf x
      · simp only [if_pos h3, afterE_error]
        exact h
      · simp only [if_neg h3]
        cases h4 : safeMove E v.elems with
        | error r =>
          have hl := safeMove_error_length E v.elems r h4
          simp only [afterE_error, AVec.size_def, AVec.size_mk]
          omega
        | ok u =>
          simp only [afterE_ok, AVec.size_def, AVec.size_mk, List.length_append,
            List.length_singleton]
          omega
  · simp only [if_neg h1]
    by_cases h3 : E.cf x
    · simp only [if_pos h3, afterE_error]
      exact h
    · simp only [if_neg h3, afterE_ok, AVec.size_def, AVec.size_mk, List.length_append,
        List.length_singleton]
      omega

theorem inv_pushBackMove {T : Type} (E : ElemOps T) (v : AVec T) (x : T)
    (h : v.size ≤ v.cap) :
    (afterE (pushBackMove E v x)).size ≤ (afterE (pushBackMove E v x)).cap := by
  have hsz : v.size = v.elems.length := rfl
  have hg := growCap_ge v.elems.length
  unfold pushBackMove
  by_cases h1 : v.size = v.cap
  · simp only [if_pos h1]
    by_cases h2 : E.af (growCap v.size)
    · simp only [if_pos h2, afterE_error]
      exact h
    · simp only [if_neg h2]
      by_cases hn : E.ntm || !E.cpy
      · simp only [hn, if_true]
        by_cases h3 : E.mf x
        · simp only [if_pos h3, afterE_error]
          exact h
        · simp only [if_neg h3]
          cases h5 : firstFail E.mf v.elems with
          | some j =>
            simp only [afterE_error, AVec.size_def, AVec.size_mk, List.length_append,
              List.length_map, List.length_take, List.length_drop]
            omega
          | none =>
            simp only [afterE_ok, AVec.size_def, AVec.size_mk, List.length_append,
              List.length_singleton]
            omega
      · simp only [hn, if_false, Bool.false_eq_true]
        by_cases h6 : E.mf x && E.cf x
        · simp only [if_pos h6, afterE_error]
          exact h
        · simp only [if_neg h6]
          cases h7 : firstFail E.cf v.elems with
          | some j =>
            simp only [afterE_error]
            exact h
          | none =>
            simp only [afterE_ok, AVec.size_def, AVec.size_mk, List.length_append,
              List.length_singleton]
            omega
  · simp only [if_neg h1]
    by_cases h3 : E.mf x
    · simp only [if_pos h3, afterE_error]
      exact h
    · simp only [if_neg h3, afterE_ok, AVec.size_def, AVec.size_mk, List.length_append,
        List.length_singleton]
      omega

theorem inv_emplaceBack {T : Type} (E : ElemOps T) (v : AVec T) (mk : Bool) (x : T)
    (h : v.size ≤ v.cap) :
    (afterEI (emplaceBack E v mk x)).size ≤ (afterEI (emplaceBack E v mk x)).cap := by
  have hsz : v.size = v.elems.length := rfl
  have hg := growCap_ge v.elems.length
  unfold emplaceBack
  by_cases h1 : v.size = v.cap
  · simp only [if_pos h1]
    by_cases h2 : E.af (growCap v.size)
    · simp only [if_pos h2, afterEI_error]
      exact h
    · simp only [if_neg h2]
      by_cases h3 : mk
      · simp only [if_pos h3, afterEI_error]
        exact h
      · simp only [if_neg h3]
        cases h4 : safeMove E v.elems with
        | error r =>
          have hl := safeMove_error_length E v.elems r h4
          simp only [afterEI_error, AVec.size_def, AVec.size_mk]
          omega
        | ok u =>
          simp only [afterEI_ok, AVec.size_def, AVec.size_mk, List.length_append,
            List.length_singleton]
          omega
  · simp only [if_neg h1]
    by_cases h3 : mk
    · simp only [if_pos h3, afterEI_error]
      exact h
    · simp only [if_neg h3, afterEI_ok, AVec.size_def, AVec.size_mk, List.length_append,
        List.length_singleton]
      omega

theorem inv_emplaceWR {T : Type} (E : ElemOps T) (v : AVec T) (p : Nat) (mk : Bool) (x : T)
    (h : v.size ≤ v.cap) :
    (afterEI (emplaceWithReallocate E v p mk x)).size ≤
      (afterEI (emplaceWithReallocate E v p mk x)).cap := by
  have hsz : v.size = v.elems.length := rfl
  have hg := growCap_ge v.elems.length
  unfold emplaceWithReallocate
  by_cases h2 : E.af (growCap v.size)
  · simp only [if_pos h2, afterEI_error]
    exact h
  · simp only [if_neg h2]
    by_cases h3 : mk
    · simp only [if_pos h3, afterEI_error]
      exact h
    · simp only [if_neg h3]
      cases h4 : safeMove E (v.elems.take p) with
      | error r =>
        have hl := safeMove_error_length E (v.elems.take p) r h4
        simp only [List.length_take] at hl
        simp only [afterEI_error, AVec.size_def, AVec.size_mk, List.length_append,
          List.length_drop]
        omega
      | ok u =>
        cases h5 : safeMove E (v.elems.drop p) with
        | error r2 =>
          have hl2 := safeMove_error_length E (v.elems.drop p) r2 h5
          simp only [List.length_drop] at hl2
          simp only [afterEI_error, AVec.size_def, AVec.size_mk, List.length_append,
            List.length_map, List.length_take]
          omega
        | ok u2 =>
          simp only [afterEI_ok, AVec.size_def, AVec.size_mk, List.length_append,
            List.length_take, List.length_cons, List.length_drop]
          unfold growCap
          split <;> omega

theorem inv_emplaceWOR {T : Type} (E : ElemOps T) (v : AVec T) (p : Nat) (mk : Bool) (x : T)
    (h : v.size < v.cap) :
    (afterEI (emplaceWithoutReallocate E v p mk x)).size ≤
      (afterEI (emplaceWithoutReallocate E v p mk x)).cap := by
  have hsz : v.size = v.elems.length := rfl
  unfold emplaceWithoutReallocate
  by_cases h3 : mk
  · simp only [if_pos h3, afterEI_error]
    omega
  · simp only [if_neg h3]
    cases hL : v.elems.getLast? with
    | none =>
      simp only [afterEI_error]
      omega
    | some a =>
      have hne : v.elems ≠ [] := by
        intro hnil
        rw [hnil] at hL
        simp at hL
      have hpos : 0 < v.elems.length := List.length_pos.mpr hne
      by_cases h4 : E.mf a
      · simp only [if_pos h4, afterEI_error, AVec.size_def, AVec.size_mk,
          List.length_append, List.length_dropLast, List.length_singleton]
        omega
      · simp only [if_neg h4]
        cases h5 : firstFail E.maf ((v.elems.drop p).dropLast).reverse with
        | some j =>
          simp only [afterEI_error, AVec.size_def, AVec.size_mk, List.length_append,
            List.length_take, List.length_map, List.length_drop, List.length_dropLast]
          omega
        | none =>
          by_cases h6 : E.maf x
          · simp only [if_pos h6, afterEI_error, AVec.size_def, AVec.size_mk,
              List.length_append, List.length_take, List.length_map, List.length_drop,
              List.length_dropLast]
            omega
          · simp only [if_neg h6, afterEI_ok, AVec.size_def, AVec.size_mk,
              List.length_append, List.length_take, List.length_cons, List.length_drop]
            omega

theorem inv_emplaceV {T : Type} (E : ElemOps T) (v : AVec T) (p : Nat) (mk : Bool) (x : T)
    (h : v.size ≤ v.cap) :
    (afterEI (emplaceV E v p mk x)).size ≤ (afterEI (emplaceV E v p mk x)).cap := by
  unfold emplaceV
  by_cases h0 : p = v.size
  · simp only [if_pos h0]
    exact inv_emplaceBack E v mk x h
  · simp only [if_neg h0]
    by_cases h1 : v.size = v.cap
    · simp only [if_pos h1]
      exact inv_emplaceWR E v p mk x h
    · simp only [if_neg h1]
      exact inv_emplaceWOR E v p mk x (by omega)

theorem inv_insertV {T : Type} (E : ElemOps T) (v : AVec T) (p : Nat) (x : T)
    (h : v.size ≤ v.cap) :
    (afterEI (insertV E v p x)).size ≤ (afterEI (insertV E v p x)).cap := by
  unfold insertV
  exact inv_emplaceV E v p (E.cf x) x h

theorem inv_eraseV {T : Type} (E : ElemOps T) (v : AVec T) (i : Nat)
    (h : v.size ≤ v.cap) (hi : i < v.size) :
    (afterEC (eraseV E v i)).size ≤ (afterEC (eraseV E v i)).cap := by
  have hsz : v.size = v.elems.length := rfl
  unfold eraseV
  cases h5 : firstFail E.maf (v.elems.drop (i + 1)) with
  | some j =>
    have hj := firstFail_some_lt E.maf (v.elems.drop (i + 1)) j h5
    simp only [List.length_drop] at hj
    simp only [afterEC_error, AVec.size_def, AVec.size_mk, List.length_append,
      List.length_take, List.length_map, List.length_drop]
    omega
  | none =>
    have ht : (v.elems.drop i).getLast?.toList.length ≤ 1 := by
      cases (v.elems.drop i).getLast? <;> simp
    rw [shiftLeft1_eq]
    simp only [afterEC_ok, AVec.size_def, AVec.size_mk, List.length_dropLast,
      List.length_append, List.length_take, List.length_tail, List.length_drop]
    omega

theorem inv_copyAssignD_ok {T : Type} (E : ElemOps T) (a b w : AVec T)
    (ha : a.size ≤ a.cap) (hb : b.size ≤ b.cap)
    (h : copyAssignD E a b = .ok w) : w.size ≤ w.cap := by
  have hsa : a.size = a.elems.length := rfl
  have hsb : b.size = b.elems.length := rfl
  unfold copyAssignD at h
  by_cases h1 : b.size > a.cap
  · simp only [if_pos h1] at h
    by_cases h2 : E.af b.size
    · simp [h2] at h
    · cases h3 : firstFail E.cf b.elems with
      | some j => simp [h2, h3] at h
      | none =>
        simp [h2, h3] at h
        subst h
        simp only [AVec.size_def, AVec.size_mk]
        omega
  · simp only [if_neg h1] at h
    by_cases h4 : b.size > a.size
    · simp only [if_pos h4] at h
      cases h5 : firstFail E.caf (b.elems.take a.size) with
      | some j => simp [h5] at h
      | none =>
        simp only [h5] at h
        cases h6 : copyTail E b.elems (b.size - a.size) (b.size - a.size) with
        | error bb => cases bb <;> simp [h6] at h
        | ok seg =>
          simp [h6] at h
          subst h
          have hsg := copyTail_ok_length E b.elems (b.size - a.size) (b.size - a.size) seg h6
          simp only [AVec.size_def, AVec.size_mk, List.length_append, List.length_take]
          omega
    · simp only [if_neg h4] at h
      cases h5 : firstFail E.caf b.elems with
      | some j => simp [h5] at h
      | none =>
        simp [h5] at h
        subst h
        simp only [AVec.size_def, AVec.size_mk]
        omega

theorem inv_copyAssignD_err {T : Type} (E : ElemOps T) (a b w : AVec T)
    (ha : a.size ≤ a.cap) (hb : b.size ≤ b.cap)
    (h : copyAssignD E a b = .err w) : w.size ≤ w.cap := by
  have hsa : a.size = a.elems.length := rfl
  have hsb : b.size = b.elems.length := rfl
  unfold copyAssignD at h
  by_cases h1 : b.size > a.cap
  · simp only [if_pos h1] at h
    by_cases h2 : E.af b.size
    · simp [h2] at h
      subst h
      exact ha
    · cases h3 : firstFail E.cf b.elems with
      | some j =>
        simp [h2, h3] at h
        subst h
        exact ha
      | none => simp [h2, h3] at h
  · simp only [if_neg h1] at h
    by_cases h4 : b.size > a.size
    · simp only [if_pos h4] at h
      cases h5 : firstFail E.caf (b.elems.take a.size) with
      | some j =>
        have hj := firstFail_some_lt E.caf (b.elems.take a.size) j h5
        simp only [List.length_take] at hj
        simp [h5] at h
        subst h
        simp only [AVec.size_def, AVec.size_mk, List.length_append, List.length_take,
          List.length_drop]
        omega
      | none =>
        simp only [h5] at h
        cases h6 : copyTail E b.elems (b.size - a.size) (b.size - a.size) with
        | error bb =>
          cases bb
          · simp [h6] at h
            subst h
            simp only [AVec.size_def, AVec.size_mk, List.length_take]
            omega
          · simp [h6] at h
        | ok seg => simp [h6] at h
    · simp only [if_neg h4] at h
      cases h5 : firstFail E.caf b.elems with
      | some j =>
        have hj := firstFail_some_lt E.caf b.elems j h5
        simp [h5] at h
        subst h
        simp only [AVec.size_def, AVec.size_mk, List.length_append, List.length_take,
          List.length_drop]
        omega
      | none => simp [h5] at h

/-- C2: every vector state reachable through any sequence of the public
operations — construction, Reserve, Resize, PushBack, EmplaceBack,
PopBack, Insert, Emplace, Erase, copy and move assignment, Swap — keeps
the invariant 0 ≤ size ≤ capacity, on normal return and also in the state
left behind when an operation exits with an exception. -/
theorem reachable_size_le_capacity {T : Type} (E : ElemOps T) (d : T) (v : AVec T)
    (h : Reachable E d v) : 0 ≤ v.size ∧ v.size ≤ v.cap := by
  refine ⟨Nat.zero_le _, ?_⟩
  induction h with
  | empty => exact Nat.le_refl 0
  | sized n => simp [sizedVec, AVec.size_def]
  | copyC hw ih => simp [copyCtor, AVec.size_def]
  | moveCDst hw ih => exact ih
  | moveCSrc hw ih => exact Nat.le_refl 0
  | reserveR c hw ih => exact inv_reserveV E _ c ih
  | resizeR n hw ih => exact inv_resizeV E d _ n ih
  | pushBackR x hw ih => exact inv_pushBack E _ x ih
  | pushBackMv x hw ih => exact inv_pushBackMove E _ x ih
  | emplaceBackR mk x hw ih => exact inv_emplaceBack E _ mk x ih
  | emplaceR p mk x hp hw ih => exact inv_emplaceV E _ p mk x ih
  | insertR p x hp hw ih => exact inv_insertV E _ p x ih
  | popBackR hne hw ih =>
    simp only [popBack, AVec.size_def, AVec.size_mk, List.length_dropLast]
    simp only [AVec.size_def] at ih
    omega
  | eraseR i hlt hw ih => exact inv_eraseV E _ i ih hlt
  | copyAsgOk ha hb heq iha ihb => exact inv_copyAssignD_ok E _ _ _ iha ihb heq
  | copyAsgErr ha hb heq iha ihb => exact inv_copyAssignD_err E _ _ _ iha ihb heq
  | moveAsgDst ha hb iha ihb => exact ihb
  | moveAsgSrc ha hb iha ihb => exact Nat.le_refl 0

theorem reachable_size_le_capacity_witness :
    0 ≤ (AVec.mk [0] 1 : AVec Nat).size ∧
    (AVec.mk [0] 1 : AVec Nat).size ≤ (AVec.mk [0] 1 : AVec Nat).cap :=
  reachable_size_le_capacity (noThrow Nat) 0 ⟨[0], 1⟩
    (Reachable.pushBackR 0 Reachable.empty)
